import Mathlib

/-!
Verification of the client-side graph layout preparation pipeline of
`frontend/app/components/KnowledgeGraph.tsx` (the `useMemo` block, lines 43-97):

1. node/edge normalization (lines 44-53),
2. connected-component labeling by iterative depth-first search (lines 55-80),
3. synthetic connector injection between component representatives (lines 82-96).

JavaScript runtime values are embedded as follows: a possibly-undefined string
(e.g. a node id read from an untyped payload) is `Option String`; a
possibly-undefined number is `Option ℚ`; JS numbers are rationals.  The JS
`Set` of visited ids is a `Finset`, the JS `Map` from id to adjacency list is
an association list updated in place, and the JS array used as a DFS stack is
a `List` whose head is the top of the stack (JS pushes and pops at the array
end; both disciplines are LIFO and pop the same element).
-/

namespace KG

/-- A JS node/edge id: a string, or `none` for `undefined`. -/
abbrev NodeId := Option String

/-- Raw node record of the incoming payload
(`{id, label?, size?, importance?, frequency?, degree?}`), all fields as they
may appear at runtime (possibly `undefined`). -/
structure RawNode where
  id : NodeId
  label : Option String
  size : Option ℚ
  importance : Option ℚ
  frequency : Option ℚ
  degree : Option ℚ
deriving DecidableEq, Repr

/-- Edge record (`{source, target, weight?, co_occurrence_count?}`), the
`D3Edge` type of the source. -/
structure Edge where
  source : NodeId
  target : NodeId
  weight : Option ℚ
  co_occurrence_count : Option ℚ
deriving DecidableEq, Repr

/-- Canonical node produced by normalization (the `D3Node` shape actually
populated at lines 44-50): `component` is `none` until labeling assigns it. -/
structure NormNode where
  id : NodeId
  label : Option String
  importance : ℚ
  frequency : ℚ
  degree : ℚ
  component : Option ℕ
deriving DecidableEq, Repr

/-- Input payload `data.graph`. -/
structure Payload where
  nodes : List RawNode
  edges : List Edge
deriving DecidableEq, Repr

/-- Result of the `useMemo` computation: `{ nodes, edges }`. -/
structure GraphOut where
  nodes : List NormNode
  edges : List Edge
deriving DecidableEq, Repr

/-- JS `x || d` on a possibly-undefined number: `undefined` and `0` are falsy. -/
def jsNumOr (x : Option ℚ) (d : ℚ) : ℚ :=
  match x with
  | none => d
  | some v => if v = 0 then d else v

/-- Line 44-50: one normalized node.
`label: n.label ?? n.id`, `importance: n.importance ?? Math.max(n.size || 1, 1) / 5`,
`frequency: n.frequency ?? 0`, `degree: n.degree ?? 0`; `component` not yet set. -/
def normalizeNode (n : RawNode) : NormNode :=
  { id := n.id
  , label := match n.label with
      | some l => some l
      | none => n.id
  , importance := match n.importance with
      | some i => i
      | none => max (jsNumOr n.size 1) 1 / 5
  , frequency := n.frequency.getD 0
  , degree := n.degree.getD 0
  , component := none }

/-- Line 44-50: `nodesIn`. -/
def normalizeNodes (ns : List RawNode) : List NormNode :=
  ns.map normalizeNode

/-- Ids of a normalized node list (the contents of `nodeIdSet`, line 52). -/
def idsOfN (ns : List NormNode) : List NodeId :=
  ns.map (fun n => n.id)

/-- Line 53: `edgesIn`, edges whose two endpoints are ids of nodes. -/
def filteredEdges (ids : List NodeId) (es : List Edge) : List Edge :=
  es.filter fun e => decide (e.source ∈ ids) && decide (e.target ∈ ids)

/-- Lines 44-53: the normalization stage, returning `(nodesIn, edgesIn)`. -/
def normalizeStep (p : Payload) : List NormNode × List Edge :=
  (normalizeNodes p.nodes,
    filteredEdges (idsOfN (normalizeNodes p.nodes)) p.edges)

/-! ### Adjacency map (lines 56-61)

The JS `Map<string, string[]>` is embedded as an association list; `Map.set`
during initialization gives one entry per distinct id, and
`adj.get(k)!.push(v)` appends to the value of the (unique, hence first)
entry with key `k`. -/

/-- In-place update of the value of the first entry with the given key
(a JS `Map` has at most one). Entries with other keys are untouched. -/
def updateAssoc (adj : List (NodeId × List NodeId)) (k : NodeId)
    (f : List NodeId → List NodeId) : List (NodeId × List NodeId) :=
  match adj with
  | [] => []
  | (k', v) :: rest =>
      if k' = k then (k', f v) :: rest else (k', v) :: updateAssoc rest k f

/-- `Map.get`: value of the first entry with the given key. -/
def lookupA (adj : List (NodeId × List NodeId)) (k : NodeId) : Option (List NodeId) :=
  match adj with
  | [] => none
  | (k', v) :: rest => if k' = k then some v else lookupA rest k

/-- Line 57: `nodesIn.forEach((n) => adj.set(n.id, []))` — after all sets the
map has one `[]` entry per distinct id (later re-sets of a duplicate id write
`[]` again, so only the key set matters). -/
def adjInit (ids : List NodeId) : List (NodeId × List NodeId) :=
  ids.dedup.map fun i => (i, [])

/-- Lines 58-61: `adj.get(e.source)!.push(e.target); adj.get(e.target)!.push(e.source)`. -/
def adjAddEdge (adj : List (NodeId × List NodeId)) (e : Edge) : List (NodeId × List NodeId) :=
  updateAssoc (updateAssoc adj e.source (fun l => l ++ [e.target])) e.target
    (fun l => l ++ [e.source])

/-- Lines 56-61: the adjacency map of the filtered edges. -/
def buildAdj (ids : List NodeId) (es : List Edge) : List (NodeId × List NodeId) :=
  es.foldl adjAddEdge (adjInit ids)

/-- Line 73: `adj.get(cur) || []`. -/
def adjOf (adj : List (NodeId × List NodeId)) (x : NodeId) : List NodeId :=
  (lookupA adj x).getD []

/-! ### Component labeling (lines 62-80) -/

/-- Line 71-72: `nodesIn.find((x) => x.id === cur)!.component = comp` —
set the `component` of the first node whose id matches. -/
def setComponentFirst (ns : List NormNode) (x : NodeId) (c : ℕ) : List NormNode :=
  match ns with
  | [] => []
  | n :: rest =>
      if n.id = x then { n with component := some c } :: rest
      else n :: setComponentFirst rest x c

/-- Lines 73-78: the inner `for (const nb of adj.get(cur) || [])` loop —
every not-yet-visited neighbour is marked visited and pushed on the stack. -/
def pushNbrs (nbs : List NodeId) (vs : Finset NodeId × List NodeId) :
    Finset NodeId × List NodeId :=
  nbs.foldl (fun vs nb => if nb ∈ vs.1 then vs else (insert nb vs.1, nb :: vs.2)) vs

/-- All ids occurring in some adjacency list: an upper bound for what the DFS
can ever push, used to compute a sufficient iteration budget. -/
def adjUniv (adj : List (NodeId × List NodeId)) : Finset NodeId :=
  ((adj.map Prod.snd).flatten).toFinset

/-- Number of `while (stack.length)` iterations (line 69) still possible from
a given state: each iteration pops one element, and every push marks a fresh
visited id drawn from `adjUniv adj`. -/
def dfsMeasure (adj : List (NodeId × List NodeId)) (visited : Finset NodeId)
    (stack : List NodeId) : ℕ :=
  (adjUniv adj \ visited).card + stack.length

/-- Lines 69-79, fueled: one `while` iteration pops `cur`, writes the current
component id into the first node with id `cur`, and pushes the unvisited
neighbours. `fuel` only bounds the number of iterations; `dfsVisit` below
supplies a budget that is never exhausted. -/
def dfsVisitF (adj : List (NodeId × List NodeId)) (c : ℕ) :
    ℕ → List NormNode → Finset NodeId → List NodeId → List NormNode × Finset NodeId
  | 0, nodes, visited, _ => (nodes, visited)
  | _ + 1, nodes, visited, [] => (nodes, visited)
  | fuel + 1, nodes, visited, cur :: rest =>
      dfsVisitF adj c fuel (setComponentFirst nodes cur c)
        (pushNbrs (adjOf adj cur) (visited, rest)).1
        (pushNbrs (adjOf adj cur) (visited, rest)).2

/-- Lines 67-79: the complete traversal of one component, started from
`stack = [n.id]` with `n.id` freshly visited. -/
def dfsVisit (adj : List (NodeId × List NodeId)) (c : ℕ) (nodes : List NormNode)
    (visited : Finset NodeId) (stack : List NodeId) : List NormNode × Finset NodeId :=
  dfsVisitF adj c (dfsMeasure adj visited stack) nodes visited stack

/-- Lines 64-80: `for (const n of nodesIn)` — iterate the ids in node order;
each unvisited id starts a new component `comp + 1`. Returns the node list
together with the final visited set and counter (locals of the source loop). -/
def labelLoop (adj : List (NodeId × List NodeId)) :
    List NodeId → ℕ → List NormNode → Finset NodeId →
      List NormNode × Finset NodeId × ℕ
  | [], comp, nodes, visited => (nodes, visited, comp)
  | i :: rest, comp, nodes, visited =>
      if i ∈ visited then labelLoop adj rest comp nodes visited
      else
        labelLoop adj rest (comp + 1)
          (dfsVisit adj (comp + 1) nodes (insert i visited) [i]).1
          (dfsVisit adj (comp + 1) nodes (insert i visited) [i]).2

/-- Lines 55-80: component labeling of the normalized nodes. -/
def labelComponents (ns : List NormNode) (es : List Edge) : List NormNode :=
  (labelLoop (buildAdj (idsOfN ns) es) (idsOfN ns) 0 ns ∅).1

/-! ### Synthetic connector injection (lines 82-96) -/

/-- Line 83: `Array.from(new Set(nodesIn.map((n) => n.component || 0))).sort((a,b) => a-b)`
— the distinct `component || 0` values in ascending order (deduplication
order is irrelevant after sorting). -/
def compIds (ns : List NormNode) : List ℕ :=
  List.insertionSort (fun a b => a ≤ b) ((ns.map fun n => n.component.getD 0).dedup)

/-- Lines 84-88: the id of the representative of component `c` — the first
node in node order with `(n.component || 0) === c`, when one exists. -/
def repByComp (ns : List NormNode) (c : ℕ) : Option NodeId :=
  (ns.find? fun n => n.component.getD 0 == c).map fun n => n.id

/-- JS truthiness of a possibly-undefined string: `undefined` and `""` are
falsy (the `if (a && b)` guard of line 93). -/
def jsTruthy : NodeId → Bool
  | none => false
  | some s => !(s == "")

/-- Lines 89-94: one synthetic edge `{source: a, target: b, weight: 0.1}` per
consecutive pair of the sorted component list, guarded by `if (a && b)`. -/
def syntheticEdges (ns : List NormNode) : List Edge :=
  let comps := compIds ns
  (comps.zip comps.tail).filterMap fun pr =>
    match repByComp ns pr.1, repByComp ns pr.2 with
    | some a, some b =>
        if jsTruthy a && jsTruthy b then
          some { source := a, target := b, weight := some (1 / 10), co_occurrence_count := none }
        else none
    | _, _ => none

/-- Lines 43-97: the whole `useMemo` computation —
`{ nodes: nodesIn, edges: [...edgesIn, ...syntheticEdges] }`. -/
def pipeline (p : Payload) : GraphOut :=
  { nodes := labelComponents (normalizeStep p).1 (normalizeStep p).2
  , edges := (normalizeStep p).2 ++
      syntheticEdges (labelComponents (normalizeStep p).1 (normalizeStep p).2) }

/-! ### The specification-side reachability relation -/

/-- Two ids joined by one edge of `es`, in either direction (edges are
treated as undirected). -/
def adjacent (es : List Edge) (x y : NodeId) : Prop :=
  ∃ e ∈ es, (e.source = x ∧ e.target = y) ∨ (e.source = y ∧ e.target = x)

/-- Two ids connected by an undirected path of edges of `es`. -/
def Reach (es : List Edge) : NodeId → NodeId → Prop :=
  Relation.ReflTransGen (adjacent es)

/-! ### Component assignments as a map from ids

Because ids are unique within one payload (a stated invariant of the data
model), the in-place `component` writes of the labeling loop are equivalent
to maintaining a partial map from ids to component numbers and applying it to
the untouched node list.  `applyCompMap` performs that application;
`overwrite` records a batch of writes of one component value. -/

/-- Apply a partial component assignment to one node. -/
def applyCompFn (m : NodeId → Option ℕ) (n : NormNode) : NormNode :=
  match m n.id with
  | some c => { n with component := some c }
  | none => n

/-- Apply a partial component assignment to every node. -/
def applyCompMap (m : NodeId → Option ℕ) (ns : List NormNode) : List NormNode :=
  ns.map (applyCompFn m)

/-- Record that every id of `S` was (re)assigned component `c`. -/
def overwrite (m : NodeId → Option ℕ) (S : Finset NodeId) (c : ℕ) : NodeId → Option ℕ :=
  fun y => if y ∈ S then some c else m y

/-- Re-normalizing a canonical node (viewed as a raw record with its optional
fields populated and no `size`) changes nothing. -/
def toRaw (u : NormNode) : RawNode :=
  { id := u.id, label := u.label, size := none, importance := some u.importance
  , frequency := some u.frequency, degree := some u.degree }

/-- The neighbour list that the pushes of lines 58-61 accumulate for key `x`:
for each edge, in order, `e.target` if `e.source === x`, then `e.source` if
`e.target === x`. -/
def nbrsList : List Edge → NodeId → List NodeId
  | [], _ => []
  | e :: es, x =>
      ((if e.source = x then [e.target] else []) ++
        (if e.target = x then [e.source] else [])) ++ nbrsList es x

/-- The partition induced by the pipeline on a payload: ids `x` and `y` are
borne by output nodes carrying equal `component` values. -/
def sameComp (p : Payload) (x y : NodeId) : Prop :=
  ∃ u ∈ (pipeline p).nodes, ∃ v ∈ (pipeline p).nodes,
    u.id = x ∧ v.id = y ∧ u.component = v.component

/-! ### Concrete payloads used to instantiate the theorems -/

/-- Three nodes `a`, `b`, `c` with explicit importance (so that concrete
evaluation stays within literal rationals). -/
def exNodes : List RawNode :=
  [⟨some "a", none, none, some 1, none, none⟩,
   ⟨some "b", none, none, some 1, none, none⟩,
   ⟨some "c", none, none, some 1, none, none⟩]

/-- A retained edge `a — b`. -/
def exEdgeAB : Edge := ⟨some "a", some "b", some 2, none⟩

/-- An edge referencing the missing node `zz`: it is dropped. -/
def exEdgeAZ : Edge := ⟨some "a", some "zz", none, none⟩

/-- Payload with components `{a, b}` and `{c}`. -/
def exPayload : Payload := ⟨exNodes, [exEdgeAB, exEdgeAZ]⟩

/-- The same payload with both lists permuted. -/
def exPayloadPerm : Payload :=
  ⟨[⟨some "b", none, none, some 1, none, none⟩,
    ⟨some "c", none, none, some 1, none, none⟩,
    ⟨some "a", none, none, some 1, none, none⟩], [exEdgeAZ, exEdgeAB]⟩

/-- The synthetic connector the pipeline emits for `exPayload`. -/
def exSyn : Edge := ⟨some "a", some "c", some (1 / 10), none⟩

/-- A raw node exercising every defaulting rule of normalization. -/
def exRaw : RawNode := ⟨some "w", none, some 0, none, some 3, none⟩

/-- Two isolated nodes whose first id is the empty string. -/
def bugPayload : Payload :=
  ⟨[⟨some "", none, none, some 1, none, none⟩,
    ⟨some "x", none, none, some 1, none, none⟩], []⟩

/-- A single node lacking the required `id`. -/
def noIdPayload : Payload := ⟨[⟨none, none, none, none, none, none⟩], []⟩


theorem adjacent_symm {es : List Edge} {x y : NodeId} (h : adjacent es x y) :
    adjacent es y x := by
  obtain ⟨e, he, h⟩ := h
  exact ⟨e, he, h.symm⟩

theorem reach_refl (es : List Edge) (x : NodeId) : Reach es x x :=
  Relation.ReflTransGen.refl

theorem reach_trans {es : List Edge} {x y z : NodeId} (h : Reach es x y)
    (h' : Reach es y z) : Reach es x z :=
  Relation.ReflTransGen.trans h h'

theorem reach_symm {es : List Edge} {x y : NodeId} (h : Reach es x y) :
    Reach es y x :=
  Relation.ReflTransGen.symmetric (fun _ _ => adjacent_symm) h

theorem reach_of_adjacent {es : List Edge} {x y : NodeId} (h : adjacent es x y) :
    Reach es x y :=
  Relation.ReflTransGen.single h

/-- A set closed under single undirected steps is closed under reachability. -/
theorem reach_closed {es : List Edge} {V : Finset NodeId}
    (hV : ∀ a ∈ V, ∀ b, adjacent es a b → b ∈ V) {a b : NodeId}
    (ha : a ∈ V) (h : Reach es a b) : b ∈ V := by
  induction h with
  | refl => exact ha
  | tail _ hstep ih => exact hV _ ih _ hstep

/-- With no edges, reachability collapses to equality. -/
theorem reach_nil {x y : NodeId} (h : Reach [] x y) : x = y := by
  induction h with
  | refl => rfl
  | tail _ hstep _ =>
      obtain ⟨e, he, _⟩ := hstep
      simp at he

/-! ### Normalization lemmas (claims C5, C8) -/

/-- The `||`-default of the source and the `getD`-default of the spec agree
once clamped at 1: `||` additionally sends an explicit `0` to the default,
but `max _ 1` erases the difference. -/
theorem jsNumOr_max (s : Option ℚ) : max (jsNumOr s 1) 1 = max (s.getD 1) 1 := by
  match s with
  | none => rfl
  | some v =>
      by_cases h : v = 0
      · subst h
        simp [jsNumOr]
      · simp [jsNumOr, h]

theorem normalizeNode_id (n : RawNode) : (normalizeNode n).id = n.id := rfl

theorem idsOfN_normalize (ns : List RawNode) :
    idsOfN (normalizeNodes ns) = ns.map RawNode.id := by
  simp only [idsOfN, normalizeNodes, List.map_map]
  rfl

theorem normalizeNode_toRaw (n : RawNode) :
    normalizeNode (toRaw (normalizeNode n)) = normalizeNode n := by
  obtain ⟨i, l, s, imp, f, d⟩ := n
  cases l <;> cases i <;> rfl

theorem mem_filteredEdges {ids : List NodeId} {es : List Edge} {e : Edge} :
    e ∈ filteredEdges ids es ↔ e ∈ es ∧ e.source ∈ ids ∧ e.target ∈ ids := by
  simp [filteredEdges, List.mem_filter]

/-! ### Characterization of the adjacency map -/

theorem mem_nbrsList {es : List Edge} {x nb : NodeId} :
    nb ∈ nbrsList es x ↔ adjacent es x nb := by
  induction es with
  | nil => simp [nbrsList, adjacent]
  | cons e es ih =>
      unfold adjacent at ih ⊢
      simp only [nbrsList, List.mem_append, ih, List.mem_cons, exists_eq_or_imp]
      by_cases hs : e.source = x <;> by_cases ht : e.target = x <;>
        simp [hs, ht, eq_comm]

theorem lookupA_updateAssoc (adj : List (NodeId × List NodeId)) (k x : NodeId)
    (f : List NodeId → List NodeId) :
    lookupA (updateAssoc adj k f) x =
      if x = k then (lookupA adj k).map f else lookupA adj x := by
  induction adj with
  | nil => simp [updateAssoc, lookupA]
  | cons p rest ih =>
      obtain ⟨k', v⟩ := p
      by_cases h : k' = k
      · subst h
        by_cases hx : k' = x
        · subst hx
          simp [updateAssoc, lookupA]
        · have hx' : ¬ x = k' := fun h' => hx h'.symm
          simp [updateAssoc, lookupA, hx, hx']
      · by_cases hx : k' = x
        · subst hx
          have h' : ¬ k' = k := h
          simp [updateAssoc, lookupA, h']
        · simp [updateAssoc, lookupA, h, hx, ih]

theorem lookupA_adjInit (ids : List NodeId) (x : NodeId) :
    lookupA (adjInit ids) x = if x ∈ ids then some [] else none := by
  have key : ∀ l : List NodeId, lookupA (l.map fun i => (i, ([] : List NodeId))) x =
      if x ∈ l then some [] else none := by
    intro l
    induction l with
    | nil => simp [lookupA]
    | cons i rest ih =>
        by_cases h : i = x
        · subst h
          simp [lookupA]
        · have h' : ¬ x = i := fun h' => h h'.symm
          simp [lookupA, h, h', ih]
  rw [adjInit, key ids.dedup]
  by_cases hx : x ∈ ids
  · rw [if_pos (List.mem_dedup.mpr hx), if_pos hx]
  · rw [if_neg (fun h => hx (List.mem_dedup.mp h)), if_neg hx]

theorem foldl_adjAddEdge_lookup (ids : List NodeId) (es : List Edge)
    (hes : ∀ e ∈ es, e.source ∈ ids ∧ e.target ∈ ids) :
    ∀ (adj : List (NodeId × List NodeId)) (A : NodeId → List NodeId),
      (∀ y, lookupA adj y = if y ∈ ids then some (A y) else none) →
      ∀ y, lookupA (es.foldl adjAddEdge adj) y =
        if y ∈ ids then some (A y ++ nbrsList es y) else none := by
  induction es with
  | nil =>
      intro adj A hA y
      simpa [nbrsList] using hA y
  | cons e es ih =>
      intro adj A hA y
      have hsrc : e.source ∈ ids := (hes e (List.mem_cons_self _ _)).1
      have htgt : e.target ∈ ids := (hes e (List.mem_cons_self _ _)).2
      have hstep : ∀ z, lookupA (adjAddEdge adj e) z =
          if z ∈ ids then
            some (A z ++ ((if e.source = z then [e.target] else []) ++
              (if e.target = z then [e.source] else []))) else none := by
        intro z
        rw [adjAddEdge]
        simp only [lookupA_updateAssoc]
        by_cases h2 : z = e.target
        · subst h2
          by_cases h1 : e.target = e.source
          · simp [h1, hA, hsrc, h1.symm ▸ hsrc]
          · have h1' : ¬ e.source = e.target := fun h => h1 h.symm
            simp [h1, h1', hA, htgt]
        · by_cases h1 : z = e.source
          · subst h1
            have h2' : ¬ e.target = e.source := fun h => h2 h.symm
            simp [h2, h2', hA, hsrc]
          · have h1' : ¬ e.source = z := fun h => h1 h.symm
            have h2' : ¬ e.target = z := fun h => h2 h.symm
            simp [h1, h2, h1', h2', hA]
      have hrec := ih (fun e' he' => hes e' (List.mem_cons_of_mem _ he'))
        (adjAddEdge adj e) _ hstep y
      rw [List.foldl_cons, hrec]
      by_cases hy : y ∈ ids <;> simp [hy, nbrsList]

theorem adjOf_buildAdj (ids : List NodeId) (es : List Edge)
    (hes : ∀ e ∈ es, e.source ∈ ids ∧ e.target ∈ ids) (x : NodeId) :
    adjOf (buildAdj ids es) x = if x ∈ ids then nbrsList es x else [] := by
  have := foldl_adjAddEdge_lookup ids es hes (adjInit ids) (fun _ => [])
    (fun y => lookupA_adjInit ids y) x
  rw [buildAdj] at *
  rw [adjOf, this]
  by_cases hx : x ∈ ids <;> simp [hx]

theorem mem_adjOf_buildAdj {ids : List NodeId} {es : List Edge}
    (hes : ∀ e ∈ es, e.source ∈ ids ∧ e.target ∈ ids) {x nb : NodeId} :
    nb ∈ adjOf (buildAdj ids es) x ↔ x ∈ ids ∧ adjacent es x nb := by
  rw [adjOf_buildAdj ids es hes]
  by_cases hx : x ∈ ids <;> simp [hx, mem_nbrsList]

theorem lookupA_eq_some_mem {adj : List (NodeId × List NodeId)} {x : NodeId}
    {l : List NodeId} (h : lookupA adj x = some l) : l ∈ adj.map Prod.snd := by
  induction adj with
  | nil => simp [lookupA] at h
  | cons p rest ih =>
      obtain ⟨k', v⟩ := p
      by_cases hk : k' = x
      · simp [lookupA, hk] at h
        simp [← h]
      · simp [lookupA, hk] at h
        simp [ih h]

theorem adjOf_subset_univ {adj : List (NodeId × List NodeId)} {x nb : NodeId}
    (h : nb ∈ adjOf adj x) : nb ∈ adjUniv adj := by
  rw [adjOf] at h
  cases hl : lookupA adj x with
  | none => rw [hl] at h; simp at h
  | some l =>
      rw [hl] at h
      simp only [Option.getD_some] at h
      rw [adjUniv, List.mem_toFinset]
      exact List.mem_flatten.mpr ⟨l, lookupA_eq_some_mem hl, h⟩

theorem applyCompFn_id (m : NodeId → Option ℕ) (n : NormNode) :
    (applyCompFn m n).id = n.id := by
  rw [applyCompFn]
  cases m n.id <;> rfl

theorem applyCompMap_none (ns : List NormNode) :
    applyCompMap (fun _ => none) ns = ns := by
  induction ns with
  | nil => rfl
  | cons n rest ih => simp [applyCompMap, applyCompFn] at *; exact ih

theorem applyCompMap_congr {m₁ m₂ : NodeId → Option ℕ} {ns : List NormNode}
    (h : ∀ y ∈ ns.map (fun n => n.id), m₁ y = m₂ y) :
    applyCompMap m₁ ns = applyCompMap m₂ ns := by
  induction ns with
  | nil => rfl
  | cons n rest ih =>
      have hn := h n.id (by simp)
      have ht := ih (fun y hy => h y (by simp [hy]))
      simp only [applyCompMap, List.map_cons] at ht ⊢
      rw [ht, applyCompFn, applyCompFn, hn]

theorem overwrite_empty (m : NodeId → Option ℕ) (c : ℕ) :
    overwrite m ∅ c = m := by
  funext y
  simp [overwrite]

theorem overwrite_overwrite_single (m : NodeId → Option ℕ) (S : Finset NodeId)
    (x : NodeId) (c : ℕ) :
    overwrite (overwrite m {x} c) S c = overwrite m (S ∪ {x}) c := by
  funext y
  by_cases hS : y ∈ S <;> by_cases hx : y = x <;> simp [overwrite, hS, hx]

theorem setComponentFirst_map_id (ns : List NormNode) (x : NodeId) (c : ℕ) :
    (setComponentFirst ns x c).map (fun n => n.id) = ns.map (fun n => n.id) := by
  induction ns with
  | nil => rfl
  | cons n rest ih =>
      by_cases h : n.id = x <;> simp [setComponentFirst, h, ih]

/-- Under unique ids, the in-place write of lines 71-72 is the same as
updating the component map at that id. -/
theorem setComponentFirst_applyCompMap {ns : List NormNode}
    (hnd : (ns.map (fun n => n.id)).Nodup) (m : NodeId → Option ℕ) (x : NodeId) (c : ℕ) :
    setComponentFirst (applyCompMap m ns) x c = applyCompMap (overwrite m {x} c) ns := by
  induction ns with
  | nil => rfl
  | cons n rest ih =>
      simp only [List.map_cons, List.nodup_cons] at hnd
      have hcons : ∀ m' : NodeId → Option ℕ,
          applyCompMap m' (n :: rest) = applyCompFn m' n :: applyCompMap m' rest :=
        fun _ => rfl
      rw [hcons, hcons, setComponentFirst, applyCompFn_id]
      by_cases h : n.id = x
      · have htail : applyCompMap m rest = applyCompMap (overwrite m {x} c) rest := by
          apply applyCompMap_congr
          intro y hy
          have hyx : ¬ y ∈ ({x} : Finset NodeId) := by
            simp only [Finset.mem_singleton]
            intro hyx
            apply hnd.1
            rw [h, ← hyx]
            exact hy
          simp [overwrite, hyx]
        rw [if_pos h, ← htail]
        congr 1
        cases hm : m n.id <;> simp [applyCompFn, overwrite, ← h, hm]
      · have hhead : applyCompFn m n = applyCompFn (overwrite m {x} c) n := by
          rw [applyCompFn, applyCompFn, overwrite, if_neg (by simp [h])]
        rw [if_neg h, hhead]
        congr 1
        exact ih hnd.2

/-! ### Lemmas about the inner neighbour loop (lines 73-78) -/

theorem pushNbrs_cons (nb : NodeId) (nbs : List NodeId) (vs : Finset NodeId × List NodeId) :
    pushNbrs (nb :: nbs) vs =
      pushNbrs nbs (if nb ∈ vs.1 then vs else (insert nb vs.1, nb :: vs.2)) := rfl

theorem pushNbrs_fst (nbs : List NodeId) (visited : Finset NodeId) (stack : List NodeId) :
    (pushNbrs nbs (visited, stack)).1 = visited ∪ nbs.toFinset := by
  induction nbs generalizing visited stack with
  | nil => simp [pushNbrs]
  | cons nb nbs ih =>
      rw [pushNbrs_cons]
      by_cases h : nb ∈ visited
      · rw [if_pos h, ih]
        rw [List.toFinset_cons, Finset.union_insert,
          Finset.insert_eq_self.mpr (Finset.mem_union_left _ h)]
      · rw [if_neg h]
        simp only [ih]
        rw [List.toFinset_cons, Finset.union_insert, Finset.insert_union]

theorem pushNbrs_mem_snd (nbs : List NodeId) (visited : Finset NodeId)
    (stack : List NodeId) (y : NodeId) :
    y ∈ (pushNbrs nbs (visited, stack)).2 ↔
      y ∈ stack ∨ (y ∈ nbs ∧ y ∉ visited) := by
  induction nbs generalizing visited stack with
  | nil => simp [pushNbrs]
  | cons nb nbs ih =>
      rw [pushNbrs_cons]
      by_cases h : nb ∈ visited
      · rw [if_pos h, ih]
        constructor
        · rintro (hy | ⟨hy, hv⟩)
          · exact Or.inl hy
          · exact Or.inr ⟨List.mem_cons_of_mem _ hy, hv⟩
        · rintro (hy | ⟨hy, hv⟩)
          · exact Or.inl hy
          · rcases List.mem_cons.mp hy with hy | hy
            · exact absurd (hy ▸ h) hv
            · exact Or.inr ⟨hy, hv⟩
      · rw [if_neg h, ih]
        simp only [List.mem_cons, Finset.mem_insert]
        constructor
        · rintro ((hy | hy) | ⟨hy, hv⟩)
          · exact Or.inr ⟨Or.inl hy, hy ▸ h⟩
          · exact Or.inl hy
          · exact Or.inr ⟨Or.inr hy, fun hv' => hv (Or.inr hv')⟩
        · rintro (hy | ⟨hy | hy, hv⟩)
          · exact Or.inl (Or.inr hy)
          · exact Or.inl (Or.inl hy)
          · by_cases hynb : y = nb
            · exact Or.inl (Or.inl hynb)
            · exact Or.inr ⟨hy, fun hv' => by
                rcases hv' with h' | h'
                · exact hynb h'
                · exact hv h'⟩

theorem pushNbrs_measure (U : Finset NodeId) (nbs : List NodeId)
    (h : ∀ nb ∈ nbs, nb ∈ U) (visited : Finset NodeId) (stack : List NodeId) :
    (U \ (pushNbrs nbs (visited, stack)).1).card + (pushNbrs nbs (visited, stack)).2.length
      ≤ (U \ visited).card + stack.length := by
  induction nbs generalizing visited stack with
  | nil => exact le_refl _
  | cons nb nbs ih =>
      rw [pushNbrs_cons]
      by_cases hnb : nb ∈ visited
      · rw [if_pos hnb]
        exact ih (fun x hx => h x (List.mem_cons_of_mem _ hx)) visited stack
      · rw [if_neg hnb]
        refine le_trans (ih (fun x hx => h x (List.mem_cons_of_mem _ hx)) _ _) ?_
        have hmem : nb ∈ U \ visited :=
          Finset.mem_sdiff.mpr ⟨h nb (List.mem_cons_self _ _), hnb⟩
        have hcard : (U \ insert nb visited).card + 1 = (U \ visited).card := by
          rw [Finset.sdiff_insert, Finset.card_erase_of_mem hmem]
          have := Finset.card_pos.mpr ⟨nb, hmem⟩
          omega
        simp only [List.length_cons]
        omega

/-! ### Lemmas about the fueled DFS (lines 67-79) -/

theorem dfsVisitF_succ_cons (adj : List (NodeId × List NodeId)) (c fuel : ℕ)
    (nodes : List NormNode) (visited : Finset NodeId) (cur : NodeId) (rest : List NodeId) :
    dfsVisitF adj c (fuel + 1) nodes visited (cur :: rest) =
      dfsVisitF adj c fuel (setComponentFirst nodes cur c)
        (pushNbrs (adjOf adj cur) (visited, rest)).1
        (pushNbrs (adjOf adj cur) (visited, rest)).2 := rfl

theorem dfsMeasure_step (adj : List (NodeId × List NodeId)) (visited : Finset NodeId)
    (cur : NodeId) (rest : List NodeId) :
    dfsMeasure adj (pushNbrs (adjOf adj cur) (visited, rest)).1
        (pushNbrs (adjOf adj cur) (visited, rest)).2 + 1 ≤
      dfsMeasure adj visited (cur :: rest) := by
  have h := pushNbrs_measure (adjUniv adj) (adjOf adj cur)
    (fun nb hnb => adjOf_subset_univ hnb) visited rest
  rw [dfsMeasure, dfsMeasure, List.length_cons]
  omega

/-- The visited set only grows. -/
theorem dfsVisitF_mono (adj : List (NodeId × List NodeId)) (c : ℕ) :
    ∀ (fuel : ℕ) (nodes : List NormNode) (visited : Finset NodeId) (stack : List NodeId),
      visited ⊆ (dfsVisitF adj c fuel nodes visited stack).2 := by
  intro fuel
  induction fuel with
  | zero =>
      intro nodes visited stack
      rw [dfsVisitF]
  | succ fuel ih =>
      intro nodes visited stack
      cases stack with
      | nil => rw [dfsVisitF]
      | cons cur rest =>
          rw [dfsVisitF_succ_cons]
          refine subset_trans ?_ (ih _ _ _)
          rw [pushNbrs_fst]
          exact Finset.subset_union_left

/-- The DFS never changes the node ids (only `component` fields are written). -/
theorem dfsVisitF_map_id (adj : List (NodeId × List NodeId)) (c : ℕ) :
    ∀ (fuel : ℕ) (nodes : List NormNode) (visited : Finset NodeId) (stack : List NodeId),
      ((dfsVisitF adj c fuel nodes visited stack).1).map (fun n => n.id) =
        nodes.map (fun n => n.id) := by
  intro fuel
  induction fuel with
  | zero => intro nodes visited stack; rw [dfsVisitF]
  | succ fuel ih =>
      intro nodes visited stack
      cases stack with
      | nil => rw [dfsVisitF]
      | cons cur rest =>
          rw [dfsVisitF_succ_cons, ih, setComponentFirst_map_id]

/-- Everything newly visited is reachable from some initial stack entry. -/
theorem dfsVisitF_sound (adj : List (NodeId × List NodeId)) (c : ℕ) (es : List Edge)
    (hrel : ∀ x nb, nb ∈ adjOf adj x → adjacent es x nb) :
    ∀ (fuel : ℕ) (nodes : List NormNode) (visited : Finset NodeId) (stack : List NodeId)
      (y : NodeId), y ∈ (dfsVisitF adj c fuel nodes visited stack).2 →
        y ∈ visited ∨ ∃ s ∈ stack, Reach es s y := by
  intro fuel
  induction fuel with
  | zero =>
      intro nodes visited stack y hy
      rw [dfsVisitF] at hy
      exact Or.inl hy
  | succ fuel ih =>
      intro nodes visited stack y hy
      cases stack with
      | nil =>
          rw [dfsVisitF] at hy
          exact Or.inl hy
      | cons cur rest =>
          rw [dfsVisitF_succ_cons] at hy
          rcases ih _ _ _ y hy with hv | ⟨s, hs, hr⟩
          · rw [pushNbrs_fst] at hv
            rcases Finset.mem_union.mp hv with hv | hv
            · exact Or.inl hv
            · exact Or.inr ⟨cur, List.mem_cons_self _ _,
                reach_of_adjacent (hrel _ _ (List.mem_toFinset.mp hv))⟩
          · rcases (pushNbrs_mem_snd _ _ _ s).mp hs with hs | ⟨hs, _⟩
            · exact Or.inr ⟨s, List.mem_cons_of_mem _ hs, hr⟩
            · exact Or.inr ⟨cur, List.mem_cons_self _ _,
                reach_trans (reach_of_adjacent (hrel _ _ hs)) hr⟩

/-- Everything newly visited is a node id (neighbour lists only hold node ids). -/
theorem dfsVisitF_ids (adj : List (NodeId × List NodeId)) (c : ℕ) (ids : List NodeId)
    (hsub : ∀ x nb, nb ∈ adjOf adj x → nb ∈ ids) :
    ∀ (fuel : ℕ) (nodes : List NormNode) (visited : Finset NodeId) (stack : List NodeId)
      (y : NodeId), y ∈ (dfsVisitF adj c fuel nodes visited stack).2 →
        y ∈ visited ∨ y ∈ ids := by
  intro fuel
  induction fuel with
  | zero =>
      intro nodes visited stack y hy
      rw [dfsVisitF] at hy
      exact Or.inl hy
  | succ fuel ih =>
      intro nodes visited stack y hy
      cases stack with
      | nil =>
          rw [dfsVisitF] at hy
          exact Or.inl hy
      | cons cur rest =>
          rw [dfsVisitF_succ_cons] at hy
          rcases ih _ _ _ y hy with hv | hv
          · rw [pushNbrs_fst] at hv
            rcases Finset.mem_union.mp hv with hv | hv
            · exact Or.inl hv
            · exact Or.inr (hsub _ _ (List.mem_toFinset.mp hv))
          · exact Or.inr hv

/-- If the DFS runs to completion and every visited id off the stack already
has all its neighbours visited, the final visited set is closed under
adjacency. -/
theorem dfsVisitF_closed (adj : List (NodeId × List NodeId)) (c : ℕ) :
    ∀ (fuel : ℕ) (nodes : List NormNode) (visited : Finset NodeId) (stack : List NodeId),
      dfsMeasure adj visited stack ≤ fuel →
      (∀ x ∈ visited, x ∈ stack ∨ ∀ nb ∈ adjOf adj x, nb ∈ visited) →
      ∀ x ∈ (dfsVisitF adj c fuel nodes visited stack).2,
        ∀ nb ∈ adjOf adj x, nb ∈ (dfsVisitF adj c fuel nodes visited stack).2 := by
  intro fuel
  induction fuel with
  | zero =>
      intro nodes visited stack hfuel hinv x hx nb hnb
      have hstack : stack = [] := by
        cases stack with
        | nil => rfl
        | cons a l =>
            rw [dfsMeasure, List.length_cons] at hfuel
            omega
      subst hstack
      rw [dfsVisitF] at hx ⊢
      rcases hinv x hx with hxs | hcl
      · simp at hxs
      · exact hcl nb hnb
  | succ fuel ih =>
      intro nodes visited stack hfuel hinv x hx nb hnb
      cases stack with
      | nil =>
          rw [dfsVisitF] at hx ⊢
          rcases hinv x hx with hxs | hcl
          · simp at hxs
          · exact hcl nb hnb
      | cons cur rest =>
          rw [dfsVisitF_succ_cons] at hx ⊢
          refine ih _ _ _ ?_ ?_ x hx nb hnb
          · have hstep := dfsMeasure_step adj visited cur rest
            omega
          · intro z hz
            by_cases hzv : z ∈ visited
            · rcases hinv z hzv with hzs | hcl
              · rcases List.mem_cons.mp hzs with hzc | hzr
                · subst hzc
                  right
                  intro nb' hnb'
                  rw [pushNbrs_fst]
                  exact Finset.mem_union_right _ (List.mem_toFinset.mpr hnb')
                · left
                  rw [pushNbrs_mem_snd]
                  exact Or.inl hzr
              · right
                intro nb' hnb'
                rw [pushNbrs_fst]
                exact Finset.mem_union_left _ (hcl nb' hnb')
            · left
              rw [pushNbrs_mem_snd]
              rw [pushNbrs_fst] at hz
              rcases Finset.mem_union.mp hz with h' | h'
              · exact absurd h' hzv
              · exact Or.inr ⟨List.mem_toFinset.mp h', hzv⟩

/-- Under unique ids, one complete DFS writes component `c` into exactly the
ids popped during the run: the initial stack entries plus everything newly
visited. -/
theorem dfsVisitF_nodes (adj : List (NodeId × List NodeId)) (c : ℕ)
    {ns₀ : List NormNode} (hnd : (ns₀.map (fun n => n.id)).Nodup) :
    ∀ (fuel : ℕ) (m : NodeId → Option ℕ) (visited : Finset NodeId) (stack : List NodeId),
      dfsMeasure adj visited stack ≤ fuel →
      (dfsVisitF adj c fuel (applyCompMap m ns₀) visited stack).1 =
        applyCompMap (overwrite m
          (((dfsVisitF adj c fuel (applyCompMap m ns₀) visited stack).2 \ visited) ∪
            stack.toFinset) c) ns₀ := by
  intro fuel
  induction fuel with
  | zero =>
      intro m visited stack hfuel
      have hstack : stack = [] := by
        cases stack with
        | nil => rfl
        | cons a l =>
            rw [dfsMeasure, List.length_cons] at hfuel
            omega
      subst hstack
      rw [dfsVisitF]
      simp [overwrite_empty]
  | succ fuel ih =>
      intro m visited stack hfuel
      cases stack with
      | nil =>
          rw [dfsVisitF]
          simp [overwrite_empty]
      | cons cur rest =>
          rw [dfsVisitF_succ_cons, setComponentFirst_applyCompMap hnd]
          have hfuel' : dfsMeasure adj (pushNbrs (adjOf adj cur) (visited, rest)).1
              (pushNbrs (adjOf adj cur) (visited, rest)).2 ≤ fuel := by
            have hstep := dfsMeasure_step adj visited cur rest
            omega
          have hmain := ih (overwrite m {cur} c)
            (pushNbrs (adjOf adj cur) (visited, rest)).1
            (pushNbrs (adjOf adj cur) (visited, rest)).2 hfuel'
          rw [hmain, overwrite_overwrite_single]
          have hmono := dfsVisitF_mono adj c fuel
            (applyCompMap (overwrite m {cur} c) ns₀)
            (pushNbrs (adjOf adj cur) (visited, rest)).1
            (pushNbrs (adjOf adj cur) (visited, rest)).2
          have hset :
              (((dfsVisitF adj c fuel (applyCompMap (overwrite m {cur} c) ns₀)
                  (pushNbrs (adjOf adj cur) (visited, rest)).1
                  (pushNbrs (adjOf adj cur) (visited, rest)).2).2 \
                    (pushNbrs (adjOf adj cur) (visited, rest)).1) ∪
                (pushNbrs (adjOf adj cur) (visited, rest)).2.toFinset) ∪ {cur} =
              ((dfsVisitF adj c fuel (applyCompMap (overwrite m {cur} c) ns₀)
                  (pushNbrs (adjOf adj cur) (visited, rest)).1
                  (pushNbrs (adjOf adj cur) (visited, rest)).2).2 \ visited) ∪
                (cur :: rest).toFinset := by
            ext y
            simp only [Finset.mem_union, Finset.mem_sdiff, Finset.mem_singleton,
              List.mem_toFinset, List.toFinset_cons, Finset.mem_insert]
            have hvsub : visited ⊆ (pushNbrs (adjOf adj cur) (visited, rest)).1 := by
              rw [pushNbrs_fst]
              exact Finset.subset_union_left
            constructor
            · rintro ((⟨hy2, hy1⟩ | hy2) | hyc)
              · exact Or.inl ⟨hy2, fun hv => hy1 (hvsub hv)⟩
              · rcases (pushNbrs_mem_snd _ _ _ y).mp hy2 with hyr | ⟨hynb, hyv⟩
                · exact Or.inr (Or.inr hyr)
                · refine Or.inl ⟨hmono ?_, hyv⟩
                  rw [pushNbrs_fst]
                  exact Finset.mem_union_right _ (List.mem_toFinset.mpr hynb)
              · exact Or.inr (Or.inl hyc)
            · rintro (⟨hy2, hyv⟩ | hyc | hyr)
              · by_cases hy1 : y ∈ (pushNbrs (adjOf adj cur) (visited, rest)).1
                · rw [pushNbrs_fst] at hy1
                  rcases Finset.mem_union.mp hy1 with h' | h'
                  · exact absurd h' hyv
                  · exact Or.inl (Or.inr ((pushNbrs_mem_snd _ _ _ y).mpr
                      (Or.inr ⟨List.mem_toFinset.mp h', hyv⟩)))
                · exact Or.inl (Or.inl ⟨hy2, hy1⟩)
              · exact Or.inr hyc
              · exact Or.inl (Or.inr ((pushNbrs_mem_snd _ _ _ y).mpr (Or.inl hyr)))
          rw [hset]

/-! ### Wrapper lemmas for `dfsVisit` (the DFS with its actual iteration budget) -/

theorem dfsVisit_mono (adj : List (NodeId × List NodeId)) (c : ℕ) (nodes : List NormNode)
    (visited : Finset NodeId) (stack : List NodeId) :
    visited ⊆ (dfsVisit adj c nodes visited stack).2 := by
  rw [dfsVisit]
  exact dfsVisitF_mono adj c _ nodes visited stack

theorem dfsVisit_map_id (adj : List (NodeId × List NodeId)) (c : ℕ) (nodes : List NormNode)
    (visited : Finset NodeId) (stack : List NodeId) :
    ((dfsVisit adj c nodes visited stack).1).map (fun n => n.id) =
      nodes.map (fun n => n.id) := by
  rw [dfsVisit]
  exact dfsVisitF_map_id adj c _ nodes visited stack

theorem dfsVisit_sound (adj : List (NodeId × List NodeId)) (c : ℕ) (es : List Edge)
    (hrel : ∀ x nb, nb ∈ adjOf adj x → adjacent es x nb) (nodes : List NormNode)
    (visited : Finset NodeId) (stack : List NodeId) (y : NodeId)
    (hy : y ∈ (dfsVisit adj c nodes visited stack).2) :
    y ∈ visited ∨ ∃ s ∈ stack, Reach es s y := by
  rw [dfsVisit] at hy
  exact dfsVisitF_sound adj c es hrel _ nodes visited stack y hy

theorem dfsVisit_ids (adj : List (NodeId × List NodeId)) (c : ℕ) (ids : List NodeId)
    (hsub : ∀ x nb, nb ∈ adjOf adj x → nb ∈ ids) (nodes : List NormNode)
    (visited : Finset NodeId) (stack : List NodeId) (y : NodeId)
    (hy : y ∈ (dfsVisit adj c nodes visited stack).2) :
    y ∈ visited ∨ y ∈ ids := by
  rw [dfsVisit] at hy
  exact dfsVisitF_ids adj c ids hsub _ nodes visited stack y hy

theorem dfsVisit_closed (adj : List (NodeId × List NodeId)) (c : ℕ) (nodes : List NormNode)
    (visited : Finset NodeId) (stack : List NodeId)
    (hinv : ∀ x ∈ visited, x ∈ stack ∨ ∀ nb ∈ adjOf adj x, nb ∈ visited) :
    ∀ x ∈ (dfsVisit adj c nodes visited stack).2,
      ∀ nb ∈ adjOf adj x, nb ∈ (dfsVisit adj c nodes visited stack).2 := by
  rw [dfsVisit]
  exact dfsVisitF_closed adj c _ nodes visited stack (le_refl _) hinv

theorem dfsVisit_nodes (adj : List (NodeId × List NodeId)) (c : ℕ)
    {ns₀ : List NormNode} (hnd : (ns₀.map (fun n => n.id)).Nodup)
    (m : NodeId → Option ℕ) (visited : Finset NodeId) (stack : List NodeId) :
    (dfsVisit adj c (applyCompMap m ns₀) visited stack).1 =
      applyCompMap (overwrite m
        (((dfsVisit adj c (applyCompMap m ns₀) visited stack).2 \ visited) ∪
          stack.toFinset) c) ns₀ := by
  rw [dfsVisit]
  exact dfsVisitF_nodes adj c hnd _ m visited stack (le_refl _)

/-- An endpoint of an undirected step lies among the edge endpoints. -/
theorem adjacent_mem_right {es : List Edge} {ids : List NodeId}
    (hes : ∀ e ∈ es, e.source ∈ ids ∧ e.target ∈ ids) {x y : NodeId}
    (h : adjacent es x y) : y ∈ ids := by
  obtain ⟨e, he, h | h⟩ := h
  · exact h.2 ▸ (hes e he).2
  · exact h.1 ▸ (hes e he).1

/-! ### Full functional specification of the labeling loop (lines 62-80) -/

/-- Invariant-carrying specification of `labelLoop` under unique node ids:
the loop rewrites the nodes according to a component map whose domain is the
visited set, component values stay within `1..k`, every value in that range
is realized by some node id, and two assigned ids carry equal values exactly
when they are connected in `es`. -/
theorem labelLoop_spec (ns₀ : List NormNode) (es : List Edge)
    (adj : List (NodeId × List NodeId))
    (hnd : (idsOfN ns₀).Nodup)
    (hadj : ∀ x nb, nb ∈ adjOf adj x ↔ (x ∈ idsOfN ns₀ ∧ adjacent es x nb))
    (hes : ∀ e ∈ es, e.source ∈ idsOfN ns₀ ∧ e.target ∈ idsOfN ns₀) :
    ∀ (L : List NodeId) (k : ℕ) (m : NodeId → Option ℕ) (visited : Finset NodeId),
      (∀ x ∈ L, x ∈ idsOfN ns₀) →
      (∀ x ∈ visited, x ∈ idsOfN ns₀) →
      (∀ x ∈ visited, ∀ nb ∈ adjOf adj x, nb ∈ visited) →
      (∀ y, (m y).isSome = true ↔ y ∈ visited) →
      (∀ y c, m y = some c → 1 ≤ c ∧ c ≤ k) →
      (∀ c, 1 ≤ c → c ≤ k → ∃ y ∈ idsOfN ns₀, m y = some c) →
      (∀ x y cx cy, m x = some cx → m y = some cy → (cx = cy ↔ Reach es x y)) →
      ∃ m' k' V',
        labelLoop adj L k (applyCompMap m ns₀) visited = (applyCompMap m' ns₀, V', k') ∧
        visited ⊆ V' ∧
        (∀ x ∈ L, x ∈ V') ∧
        (∀ x ∈ V', x ∈ idsOfN ns₀) ∧
        (∀ y, (m' y).isSome = true ↔ y ∈ V') ∧
        (∀ y c, m' y = some c → 1 ≤ c ∧ c ≤ k') ∧
        (∀ c, 1 ≤ c → c ≤ k' → ∃ y ∈ idsOfN ns₀, m' y = some c) ∧
        (∀ x y cx cy, m' x = some cx → m' y = some cy → (cx = cy ↔ Reach es x y)) := by
  have hrel : ∀ x nb, nb ∈ adjOf adj x → adjacent es x nb :=
    fun x nb h => ((hadj x nb).mp h).2
  have hsubids : ∀ x nb, nb ∈ adjOf adj x → nb ∈ idsOfN ns₀ :=
    fun x nb h => adjacent_mem_right hes ((hadj x nb).mp h).2
  intro L
  induction L with
  | nil =>
      intro k m visited hL hvi hcl hdom hrange hsurj hpart
      exact ⟨m, k, visited, rfl, subset_rfl, by simp, hvi, hdom, hrange, hsurj, hpart⟩
  | cons i rest ih =>
      intro k m visited hL hvi hcl hdom hrange hsurj hpart
      by_cases hiv : i ∈ visited
      · obtain ⟨m', k', V', heq, hsub, hLV, hidV, hdom', hrange', hsurj', hpart'⟩ :=
          ih k m visited (fun x hx => hL x (List.mem_cons_of_mem _ hx)) hvi hcl
            hdom hrange hsurj hpart
        refine ⟨m', k', V', ?_, hsub, ?_, hidV, hdom', hrange', hsurj', hpart'⟩
        · rw [labelLoop, if_pos hiv]
          exact heq
        · intro x hx
          rcases List.mem_cons.mp hx with hx | hx
          · exact hsub (hx ▸ hiv)
          · exact hLV x hx
      · -- a fresh component k+1 is traversed from i
        have hiid : i ∈ idsOfN ns₀ := hL i (List.mem_cons_self _ _)
        have hvisadj : ∀ x ∈ visited, ∀ nb, adjacent es x nb → nb ∈ visited :=
          fun x hx nb ha => hcl x hx nb ((hadj x nb).mpr ⟨hvi x hx, ha⟩)
        have hmono := dfsVisit_mono adj (k + 1) (applyCompMap m ns₀) (insert i visited) [i]
        have hiV2 : i ∈ (dfsVisit adj (k + 1) (applyCompMap m ns₀)
            (insert i visited) [i]).2 := hmono (Finset.mem_insert_self _ _)
        have hV2ids : ∀ y ∈ (dfsVisit adj (k + 1) (applyCompMap m ns₀)
            (insert i visited) [i]).2, y ∈ idsOfN ns₀ := by
          intro y hy
          rcases dfsVisit_ids adj (k + 1) (idsOfN ns₀) hsubids _ _ _ y hy with hv | hv
          · rcases Finset.mem_insert.mp hv with hv | hv
            · exact hv ▸ hiid
            · exact hvi y hv
          · exact hv
        have hclosed := dfsVisit_closed adj (k + 1) (applyCompMap m ns₀)
          (insert i visited) [i] (by
            intro x hx
            rcases Finset.mem_insert.mp hx with hx | hx
            · exact Or.inl (by simp [hx])
            · exact Or.inr (fun nb hnb =>
                Finset.mem_insert_of_mem (hcl x hx nb hnb)))
        have hadjclosedV2 : ∀ x ∈ (dfsVisit adj (k + 1) (applyCompMap m ns₀)
            (insert i visited) [i]).2, ∀ nb, adjacent es x nb →
              nb ∈ (dfsVisit adj (k + 1) (applyCompMap m ns₀) (insert i visited) [i]).2 :=
          fun x hx nb ha => hclosed x hx nb ((hadj x nb).mpr ⟨hV2ids x hx, ha⟩)
        have hchar : ∀ y, y ∈ (dfsVisit adj (k + 1) (applyCompMap m ns₀)
            (insert i visited) [i]).2 ↔ (y ∈ visited ∨ Reach es i y) := by
          intro y
          constructor
          · intro hy
            rcases dfsVisit_sound adj (k + 1) es hrel _ _ _ y hy with hv | ⟨s, hs, hr⟩
            · rcases Finset.mem_insert.mp hv with hv | hv
              · exact Or.inr (hv ▸ reach_refl es i)
              · exact Or.inl hv
            · rcases List.mem_cons.mp hs with hs | hs
              · exact Or.inr (hs ▸ hr)
              · simp at hs
          · rintro (hy | hy)
            · exact hmono (Finset.mem_insert_of_mem hy)
            · exact reach_closed hadjclosedV2 hiV2 hy
        have hS : ((dfsVisit adj (k + 1) (applyCompMap m ns₀) (insert i visited) [i]).2 \
              insert i visited) ∪ ([i] : List NodeId).toFinset =
            (dfsVisit adj (k + 1) (applyCompMap m ns₀) (insert i visited) [i]).2 \ visited := by
          ext y
          simp only [Finset.mem_union, Finset.mem_sdiff, Finset.mem_insert,
            List.toFinset_cons, List.toFinset_nil, insert_emptyc_eq, Finset.mem_singleton]
          constructor
          · rintro (⟨hy2, hy1⟩ | hyc)
            · exact ⟨hy2, fun hv => hy1 (Or.inr hv)⟩
            · exact ⟨hyc ▸ hiV2, hyc ▸ hiv⟩
          · rintro ⟨hy2, hyv⟩
            by_cases hyi : y = i
            · exact Or.inr hyi
            · exact Or.inl ⟨hy2, fun h => (h.elim hyi hyv)⟩
        have hnodes := dfsVisit_nodes adj (k + 1) hnd m (insert i visited) [i]
        rw [hS] at hnodes
        -- the updated component map after this DFS
        obtain ⟨m', k', V', heq, hsub, hLV, hidV, hdom', hrange', hsurj', hpart'⟩ :=
          ih (k + 1)
            (overwrite m ((dfsVisit adj (k + 1) (applyCompMap m ns₀)
              (insert i visited) [i]).2 \ visited) (k + 1))
            (dfsVisit adj (k + 1) (applyCompMap m ns₀) (insert i visited) [i]).2
            (fun x hx => hL x (List.mem_cons_of_mem _ hx))
            hV2ids
            hclosed
            (by -- domain of the new map is the new visited set
              intro y
              rw [overwrite]
              by_cases hy : y ∈ (dfsVisit adj (k + 1) (applyCompMap m ns₀)
                  (insert i visited) [i]).2 \ visited
              · simp only [if_pos hy, Option.isSome_some, true_iff]
                exact (Finset.mem_sdiff.mp hy).1
              · rw [if_neg hy, hdom]
                constructor
                · intro hv
                  exact hmono (Finset.mem_insert_of_mem hv)
                · intro hv
                  by_cases hv' : y ∈ visited
                  · exact hv'
                  · exact absurd (Finset.mem_sdiff.mpr ⟨hv, hv'⟩) hy)
            (by -- range grows to 1..k+1
              intro y c hy
              rw [overwrite] at hy
              by_cases h' : y ∈ (dfsVisit adj (k + 1) (applyCompMap m ns₀)
                  (insert i visited) [i]).2 \ visited
              · rw [if_pos h'] at hy
                have := Option.some.inj hy
                omega
              · rw [if_neg h'] at hy
                have := hrange y c hy
                omega)
            (by -- surjectivity onto 1..k+1
              intro c hc1 hc2
              by_cases hck : c ≤ k
              · obtain ⟨y, hy, hmy⟩ := hsurj c hc1 hck
                refine ⟨y, hy, ?_⟩
                rw [overwrite, if_neg ?_]
                · exact hmy
                · intro h'
                  have : y ∈ visited := (hdom y).mp (by rw [hmy]; rfl)
                  exact (Finset.mem_sdiff.mp h').2 this
              · have hck1 : c = k + 1 := by omega
                refine ⟨i, hiid, ?_⟩
                rw [overwrite, if_pos (Finset.mem_sdiff.mpr ⟨hiV2, hiv⟩), hck1])
            (by -- the partition property is preserved
              intro x y cx cy hx hy
              rw [overwrite] at hx hy
              by_cases hx' : x ∈ (dfsVisit adj (k + 1) (applyCompMap m ns₀)
                  (insert i visited) [i]).2 \ visited
              · rw [if_pos hx'] at hx
                have hcx : cx = k + 1 := (Option.some.inj hx).symm
                by_cases hy' : y ∈ (dfsVisit adj (k + 1) (applyCompMap m ns₀)
                    (insert i visited) [i]).2 \ visited
                · rw [if_pos hy'] at hy
                  have hcy : cy = k + 1 := (Option.some.inj hy).symm
                  have hrx : Reach es i x := by
                    rcases (hchar x).mp (Finset.mem_sdiff.mp hx').1 with h' | h'
                    · exact absurd h' (Finset.mem_sdiff.mp hx').2
                    · exact h'
                  have hry : Reach es i y := by
                    rcases (hchar y).mp (Finset.mem_sdiff.mp hy').1 with h' | h'
                    · exact absurd h' (Finset.mem_sdiff.mp hy').2
                    · exact h'
                  constructor
                  · intro _
                    exact reach_trans (reach_symm hrx) hry
                  · intro _
                    rw [hcx, hcy]
                · rw [if_neg hy'] at hy
                  have hcy := hrange y cy hy
                  have hyvis : y ∈ visited := (hdom y).mp (by rw [hy]; rfl)
                  constructor
                  · intro h'
                    omega
                  · intro h'
                    have : x ∈ visited :=
                      reach_closed (fun a ha b hb => hvisadj a ha b hb) hyvis (reach_symm h')
                    exact absurd this (Finset.mem_sdiff.mp hx').2
              · rw [if_neg hx'] at hx
                have hcx := hrange x cx hx
                have hxvis : x ∈ visited := (hdom x).mp (by rw [hx]; rfl)
                by_cases hy' : y ∈ (dfsVisit adj (k + 1) (applyCompMap m ns₀)
                    (insert i visited) [i]).2 \ visited
                · rw [if_pos hy'] at hy
                  have hcy : cy = k + 1 := (Option.some.inj hy).symm
                  constructor
                  · intro h'
                    omega
                  · intro h'
                    have : y ∈ visited :=
                      reach_closed (fun a ha b hb => hvisadj a ha b hb) hxvis h'
                    exact absurd this (Finset.mem_sdiff.mp hy').2
                · rw [if_neg hy'] at hy
                  exact hpart x y cx cy hx hy)
        refine ⟨m', k', V', ?_, ?_, ?_, hidV, hdom', hrange', hsurj', hpart'⟩
        · rw [labelLoop, if_neg hiv, hnodes]
          exact heq
        · exact subset_trans (subset_trans (Finset.subset_insert _ _) hmono) hsub
        · intro x hx
          rcases List.mem_cons.mp hx with hx | hx
          · exact hsub (hx ▸ hiV2)
          · exact hLV x hx

/-! ### Instantiation at the real entry state -/

theorem mem_idsOfN {ns : List NormNode} {n : NormNode} (h : n ∈ ns) :
    n.id ∈ idsOfN ns :=
  List.mem_map_of_mem _ h

theorem labelLoop_map_id (adj : List (NodeId × List NodeId)) :
    ∀ (L : List NodeId) (comp : ℕ) (nodes : List NormNode) (visited : Finset NodeId),
      ((labelLoop adj L comp nodes visited).1).map (fun n => n.id) =
        nodes.map (fun n => n.id) := by
  intro L
  induction L with
  | nil => intro comp nodes visited; rw [labelLoop]
  | cons i rest ih =>
      intro comp nodes visited
      rw [labelLoop]
      by_cases h : i ∈ visited
      · rw [if_pos h]
        exact ih comp nodes visited
      · rw [if_neg h, ih, dfsVisit_map_id]

theorem idsOfN_labelComponents (ns : List NormNode) (es : List Edge) :
    idsOfN (labelComponents ns es) = idsOfN ns := by
  rw [labelComponents, idsOfN, labelLoop_map_id]
  rfl

/-- Full specification of `labelComponents` (lines 55-80) under unique ids:
the result applies a total-on-ids component map to the input nodes, values
are exactly `1..k` for some `k`, and equal values characterize undirected
connectivity in `es`. -/
theorem labelComponents_spec (ns₀ : List NormNode) (es : List Edge)
    (hnd : (idsOfN ns₀).Nodup)
    (hes : ∀ e ∈ es, e.source ∈ idsOfN ns₀ ∧ e.target ∈ idsOfN ns₀) :
    ∃ m' k',
      labelComponents ns₀ es = applyCompMap m' ns₀ ∧
      (∀ y, (m' y).isSome = true ↔ y ∈ idsOfN ns₀) ∧
      (∀ y c, m' y = some c → 1 ≤ c ∧ c ≤ k') ∧
      (∀ c, 1 ≤ c → c ≤ k' → ∃ y ∈ idsOfN ns₀, m' y = some c) ∧
      (∀ x y cx cy, m' x = some cx → m' y = some cy → (cx = cy ↔ Reach es x y)) := by
  have hadj : ∀ x nb, nb ∈ adjOf (buildAdj (idsOfN ns₀) es) x ↔
      (x ∈ idsOfN ns₀ ∧ adjacent es x nb) := fun x nb => mem_adjOf_buildAdj hes
  obtain ⟨m', k', V', heq, hsub, hLV, hidV, hdom', hrange', hsurj', hpart'⟩ :=
    labelLoop_spec ns₀ es (buildAdj (idsOfN ns₀) es) hnd hadj hes (idsOfN ns₀) 0
      (fun _ => none) ∅ (fun x hx => hx) (by simp) (by simp) (by simp) (by simp)
      (by intro c h1 h2; omega) (by simp)
  have hVids : ∀ y, y ∈ V' ↔ y ∈ idsOfN ns₀ := fun y => ⟨hidV y, hLV y⟩
  refine ⟨m', k', ?_, ?_, hrange', hsurj', hpart'⟩
  · rw [applyCompMap_none] at heq
    rw [labelComponents, heq]
  · intro y
    rw [hdom' y, hVids y]

/-- Shared characterization of the pipeline output under unique raw ids. -/
theorem pipeline_comp (p : Payload) (hnd : (p.nodes.map RawNode.id).Nodup) :
    ∃ m' k',
      (pipeline p).nodes = applyCompMap m' (normalizeStep p).1 ∧
      (∀ y, (m' y).isSome = true ↔ y ∈ idsOfN (normalizeStep p).1) ∧
      (∀ y c, m' y = some c → 1 ≤ c ∧ c ≤ k') ∧
      (∀ c, 1 ≤ c → c ≤ k' → ∃ y ∈ idsOfN (normalizeStep p).1, m' y = some c) ∧
      (∀ x y cx cy, m' x = some cx → m' y = some cy →
        (cx = cy ↔ Reach (normalizeStep p).2 x y)) := by
  have hnd' : (idsOfN (normalizeStep p).1).Nodup := by
    rw [normalizeStep, idsOfN_normalize]
    exact hnd
  have hes : ∀ e ∈ (normalizeStep p).2,
      e.source ∈ idsOfN (normalizeStep p).1 ∧ e.target ∈ idsOfN (normalizeStep p).1 := by
    intro e he
    rw [normalizeStep] at he
    exact ⟨(mem_filteredEdges.mp he).2.1, (mem_filteredEdges.mp he).2.2⟩
  obtain ⟨m', k', heq, hdom, hrange, hsurj, hpart⟩ :=
    labelComponents_spec (normalizeStep p).1 (normalizeStep p).2 hnd' hes
  exact ⟨m', k', heq, hdom, hrange, hsurj, hpart⟩

/-- Any edge produced by the connector injector joins two node ids of `ns`
and carries weight `0.1`. -/
theorem syntheticEdges_mem {ns : List NormNode} {e : Edge}
    (h : e ∈ syntheticEdges ns) :
    (∃ u ∈ ns, u.id = e.source) ∧ (∃ v ∈ ns, v.id = e.target) ∧
      e.weight = some (1 / 10) := by
  simp only [syntheticEdges] at h
  obtain ⟨pr, _, he⟩ := List.mem_filterMap.mp h
  rcases hra : repByComp ns pr.1 with _ | a
  · rw [hra] at he
    simp at he
  · rcases hrb : repByComp ns pr.2 with _ | b
    · rw [hra, hrb] at he
      simp at he
    · rw [hra, hrb] at he
      have he2 : (if jsTruthy a && jsTruthy b then some ({ source := a, target := b, weight := some (1 / 10), co_occurrence_count := none } : Edge) else none) = some e := he
      by_cases hj : jsTruthy a && jsTruthy b
      · rw [if_pos hj] at he2
        have he' := Option.some.inj he2
        obtain ⟨na, hfa, hida⟩ := Option.map_eq_some'.mp hra
        obtain ⟨nb, hfb, hidb⟩ := Option.map_eq_some'.mp hrb
        refine ⟨⟨na, List.mem_of_find?_eq_some hfa, ?_⟩,
          ⟨nb, List.mem_of_find?_eq_some hfb, ?_⟩, ?_⟩
        · rw [hida, ← he']
        · rw [hidb, ← he']
        · rw [← he']
      · rw [if_neg hj] at he2
        simp at he2

/-- C2: after component labeling, two output nodes carry equal `component`
values exactly when their ids are joined by an undirected path of retained
(filtered) edges; synthetic edges play no role in the labeling. -/
theorem c2_partition (p : Payload) (hnd : (p.nodes.map RawNode.id).Nodup) :
    ∀ u ∈ (pipeline p).nodes, ∀ v ∈ (pipeline p).nodes,
      (u.component = v.component ↔ Reach (normalizeStep p).2 u.id v.id) := by
  obtain ⟨m', k', hnodes, hdom, hrange, hsurj, hpart⟩ := pipeline_comp p hnd
  intro u hu v hv
  rw [hnodes, applyCompMap] at hu hv
  obtain ⟨nu, hnu, rfl⟩ := List.mem_map.mp hu
  obtain ⟨nv, hnv, rfl⟩ := List.mem_map.mp hv
  obtain ⟨cu, hcu⟩ := Option.isSome_iff_exists.mp ((hdom nu.id).mpr (mem_idsOfN hnu))
  obtain ⟨cv, hcv⟩ := Option.isSome_iff_exists.mp ((hdom nv.id).mpr (mem_idsOfN hnv))
  have hcompu : (applyCompFn m' nu).component = some cu := by
    rw [applyCompFn, hcu]
  have hcompv : (applyCompFn m' nv).component = some cv := by
    rw [applyCompFn, hcv]
  rw [hcompu, hcompv, applyCompFn_id, applyCompFn_id]
  constructor
  · intro h
    exact (hpart _ _ _ _ hcu hcv).mp (Option.some.inj h)
  · intro h
    exact congrArg some ((hpart _ _ _ _ hcu hcv).mpr h)

/-- C9: after labeling, every output node has exactly one defined `component`
value, and the values assigned are exactly the consecutive integers `1..k`. -/
theorem c9_component_range (p : Payload) (hnd : (p.nodes.map RawNode.id).Nodup) :
    ∃ k, (∀ u ∈ (pipeline p).nodes, ∃ c, u.component = some c ∧ 1 ≤ c ∧ c ≤ k) ∧
      (∀ c, 1 ≤ c → c ≤ k → ∃ u ∈ (pipeline p).nodes, u.component = some c) := by
  obtain ⟨m', k', hnodes, hdom, hrange, hsurj, hpart⟩ := pipeline_comp p hnd
  refine ⟨k', ?_, ?_⟩
  · intro u hu
    rw [hnodes, applyCompMap] at hu
    obtain ⟨nu, hnu, rfl⟩ := List.mem_map.mp hu
    obtain ⟨cu, hcu⟩ := Option.isSome_iff_exists.mp ((hdom nu.id).mpr (mem_idsOfN hnu))
    refine ⟨cu, ?_, (hrange _ _ hcu).1, (hrange _ _ hcu).2⟩
    rw [applyCompFn, hcu]
  · intro c h1 h2
    obtain ⟨y, hy, hmy⟩ := hsurj c h1 h2
    rw [idsOfN] at hy
    obtain ⟨n, hn, hny⟩ := List.mem_map.mp hy
    refine ⟨applyCompFn m' n, ?_, ?_⟩
    · rw [hnodes, applyCompMap]
      exact List.mem_map_of_mem _ hn
    · rw [applyCompFn, hny, hmy]

theorem normalizeStep_fst (p : Payload) :
    (normalizeStep p).1 = normalizeNodes p.nodes := rfl

theorem normalizeStep_snd (p : Payload) :
    (normalizeStep p).2 = filteredEdges (idsOfN (normalizeNodes p.nodes)) p.edges := rfl

theorem exists_node_of_mem_idsOfN {ns : List NormNode} {x : NodeId}
    (h : x ∈ idsOfN ns) : ∃ u ∈ ns, u.id = x := by
  rw [idsOfN] at h
  obtain ⟨u, hu, hx⟩ := List.mem_map.mp h
  exact ⟨u, hu, hx⟩

/-- The equal-component relation coincides with joint membership plus
reachability in the retained edges. -/
theorem sameComp_iff (p : Payload) (hnd : (p.nodes.map RawNode.id).Nodup)
    (x y : NodeId) :
    sameComp p x y ↔ (x ∈ idsOfN (normalizeStep p).1 ∧ y ∈ idsOfN (normalizeStep p).1 ∧
      Reach (normalizeStep p).2 x y) := by
  obtain ⟨m', k', hnodes, hdom, hrange, hsurj, hpart⟩ := pipeline_comp p hnd
  constructor
  · rintro ⟨u, hu, v, hv, hux, hvy, hc⟩
    rw [hnodes, applyCompMap] at hu hv
    obtain ⟨nu, hnu, rfl⟩ := List.mem_map.mp hu
    obtain ⟨nv, hnv, rfl⟩ := List.mem_map.mp hv
    rw [applyCompFn_id] at hux hvy
    subst hux
    subst hvy
    obtain ⟨cu, hcu⟩ := Option.isSome_iff_exists.mp ((hdom nu.id).mpr (mem_idsOfN hnu))
    obtain ⟨cv, hcv⟩ := Option.isSome_iff_exists.mp ((hdom nv.id).mpr (mem_idsOfN hnv))
    have hcompu : (applyCompFn m' nu).component = some cu := by
      rw [applyCompFn, hcu]
    have hcompv : (applyCompFn m' nv).component = some cv := by
      rw [applyCompFn, hcv]
    rw [hcompu, hcompv] at hc
    exact ⟨mem_idsOfN hnu, mem_idsOfN hnv,
      (hpart _ _ _ _ hcu hcv).mp (Option.some.inj hc)⟩
  · rintro ⟨hx, hy, hr⟩
    obtain ⟨nu, hnu, hnux⟩ := exists_node_of_mem_idsOfN hx
    obtain ⟨nv, hnv, hnvy⟩ := exists_node_of_mem_idsOfN hy
    obtain ⟨cu, hcu⟩ := Option.isSome_iff_exists.mp ((hdom nu.id).mpr (mem_idsOfN hnu))
    obtain ⟨cv, hcv⟩ := Option.isSome_iff_exists.mp ((hdom nv.id).mpr (mem_idsOfN hnv))
    refine ⟨applyCompFn m' nu, ?_, applyCompFn m' nv, ?_, ?_, ?_, ?_⟩
    · rw [hnodes, applyCompMap]
      exact List.mem_map_of_mem _ hnu
    · rw [hnodes, applyCompMap]
      exact List.mem_map_of_mem _ hnv
    · rw [applyCompFn_id]
      exact hnux
    · rw [applyCompFn_id]
      exact hnvy
    · have hcc : cu = cv := (hpart _ _ _ _ hcu hcv).mpr (by rw [hnux, hnvy]; exact hr)
      rw [applyCompFn, applyCompFn, hcu, hcv, hcc]

/-- C7: permuting the node and edge lists leaves the component partition
unchanged — two ids share a component after the permuted run exactly when
they do after the original run. -/
theorem c7_order_invariance (p p' : Payload) (hn : p'.nodes.Perm p.nodes)
    (he : p'.edges.Perm p.edges) (hnd : (p.nodes.map RawNode.id).Nodup) :
    ∀ x y, sameComp p x y ↔ sameComp p' x y := by
  have hnd' : (p'.nodes.map RawNode.id).Nodup := (hn.map RawNode.id).nodup_iff.mpr hnd
  have hids : ∀ z, z ∈ idsOfN (normalizeStep p').1 ↔ z ∈ idsOfN (normalizeStep p).1 := by
    intro z
    rw [normalizeStep_fst, normalizeStep_fst, idsOfN_normalize, idsOfN_normalize]
    exact (hn.map RawNode.id).mem_iff
  have hedge : ∀ e, e ∈ (normalizeStep p').2 ↔ e ∈ (normalizeStep p).2 := by
    intro e
    rw [normalizeStep_snd, normalizeStep_snd, mem_filteredEdges, mem_filteredEdges]
    constructor
    · rintro ⟨h1, h2, h3⟩
      refine ⟨he.mem_iff.mp h1, ?_, ?_⟩
      · have := (hids e.source).mp (by rw [normalizeStep_fst] at *; exact h2)
        rw [normalizeStep_fst] at this
        exact this
      · have := (hids e.target).mp (by rw [normalizeStep_fst] at *; exact h3)
        rw [normalizeStep_fst] at this
        exact this
    · rintro ⟨h1, h2, h3⟩
      refine ⟨he.mem_iff.mpr h1, ?_, ?_⟩
      · have := (hids e.source).mpr (by rw [normalizeStep_fst] at *; exact h2)
        rw [normalizeStep_fst] at this
        exact this
      · have := (hids e.target).mpr (by rw [normalizeStep_fst] at *; exact h3)
        rw [normalizeStep_fst] at this
        exact this
  have hadj2 : ∀ a b, adjacent (normalizeStep p').2 a b → adjacent (normalizeStep p).2 a b := by
    rintro a b ⟨e, hee, hor⟩
    exact ⟨e, (hedge e).mp hee, hor⟩
  have hadj3 : ∀ a b, adjacent (normalizeStep p).2 a b → adjacent (normalizeStep p').2 a b := by
    rintro a b ⟨e, hee, hor⟩
    exact ⟨e, (hedge e).mpr hee, hor⟩
  have hreach : ∀ a b, Reach (normalizeStep p').2 a b ↔ Reach (normalizeStep p).2 a b :=
    fun a b => ⟨Relation.ReflTransGen.mono (fun u v h => hadj2 u v h),
      Relation.ReflTransGen.mono (fun u v h => hadj3 u v h)⟩
  intro x y
  rw [sameComp_iff p hnd x y, sameComp_iff p' hnd' x y]
  constructor
  · rintro ⟨h1, h2, h3⟩
    exact ⟨(hids x).mpr h1, (hids y).mpr h2, (hreach x y).mpr h3⟩
  · rintro ⟨h1, h2, h3⟩
    exact ⟨(hids x).mp h1, (hids y).mp h2, (hreach x y).mp h3⟩

/-- C4: every output edge — retained or synthetic — has both endpoints among
the output node ids, and an input edge with a missing endpoint is dropped
(it never reaches the output). -/
theorem c4_referential_integrity (p : Payload) :
    (∀ e ∈ (pipeline p).edges,
      (∃ u ∈ (pipeline p).nodes, u.id = e.source) ∧
      (∃ v ∈ (pipeline p).nodes, v.id = e.target)) ∧
    (∀ e ∈ p.edges,
      ¬ (e.source ∈ idsOfN (pipeline p).nodes ∧ e.target ∈ idsOfN (pipeline p).nodes) →
        e ∉ (pipeline p).edges) := by
  have hidseq : idsOfN (pipeline p).nodes = idsOfN (normalizeNodes p.nodes) := by
    have h1 := idsOfN_labelComponents (normalizeStep p).1 (normalizeStep p).2
    rw [normalizeStep_fst] at h1
    exact h1
  have hsplit : (pipeline p).edges =
      (normalizeStep p).2 ++ syntheticEdges (pipeline p).nodes := rfl
  constructor
  · intro e hee
    rw [hsplit, List.mem_append] at hee
    rcases hee with hee | hee
    · rw [normalizeStep_snd, mem_filteredEdges] at hee
      constructor
      · exact exists_node_of_mem_idsOfN (hidseq ▸ hee.2.1)
      · exact exists_node_of_mem_idsOfN (hidseq ▸ hee.2.2)
    · exact ⟨(syntheticEdges_mem hee).1, (syntheticEdges_mem hee).2.1⟩
  · intro e _ hbad hcon
    rw [hsplit, List.mem_append] at hcon
    rcases hcon with hcon | hcon
    · rw [normalizeStep_snd, mem_filteredEdges] at hcon
      exact hbad ⟨hidseq ▸ hcon.2.1, hidseq ▸ hcon.2.2⟩
    · obtain ⟨⟨u, hu, hus⟩, ⟨v, hv, hvt⟩, _⟩ := syntheticEdges_mem hcon
      exact hbad ⟨hus ▸ mem_idsOfN hu, hvt ▸ mem_idsOfN hv⟩

/-- C10: the output edge list is exactly the retained original edges — a
sublist of the input, records untouched, order preserved — followed by the
synthetic edges, each of which carries weight `0.1`. -/
theorem c10_frame (p : Payload) :
    (pipeline p).edges =
      filteredEdges (idsOfN (normalizeNodes p.nodes)) p.edges ++
        syntheticEdges (pipeline p).nodes ∧
    (filteredEdges (idsOfN (normalizeNodes p.nodes)) p.edges).Sublist p.edges ∧
    (∀ e ∈ syntheticEdges (pipeline p).nodes, e.weight = some (1 / 10)) := by
  refine ⟨rfl, ?_, fun e hee => (syntheticEdges_mem hee).2.2⟩
  unfold filteredEdges
  exact List.filter_sublist _

/-- C5: normalization maps each raw node, in order, to a canonical node whose
`label` defaults to `id`, whose `importance` defaults to `max(size, 1) / 5`
with an absent `size` treated as `1`, and whose `frequency` and `degree`
default to `0`. -/
theorem c5_normalization (ns : List RawNode) (i : ℕ) (n : RawNode)
    (h : ns[i]? = some n) :
    ∃ u, (normalizeNodes ns)[i]? = some u ∧
      u.id = n.id ∧
      (∀ l, n.label = some l → u.label = some l) ∧
      (n.label = none → u.label = n.id) ∧
      (∀ q, n.importance = some q → u.importance = q) ∧
      (n.importance = none → u.importance = max (n.size.getD 1) 1 / 5) ∧
      u.frequency = n.frequency.getD 0 ∧
      u.degree = n.degree.getD 0 ∧
      (normalizeNodes ns).length = ns.length := by
  refine ⟨normalizeNode n, ?_, rfl, ?_, ?_, ?_, ?_, rfl, rfl, by simp [normalizeNodes]⟩
  · rw [normalizeNodes, List.getElem?_map, h]
    rfl
  · intro l hl
    rw [normalizeNode, hl]
  · intro hl
    rw [normalizeNode, hl]
  · intro q hq
    rw [normalizeNode, hq]
  · intro hq
    rw [normalizeNode, hq]
    simp only
    rw [jsNumOr_max]

/-- C8: normalization is idempotent — feeding the canonical nodes (viewed as
raw records) and already-filtered edges back through the normalization stage
reproduces the same output. -/
theorem c8_idempotent (p : Payload) :
    normalizeStep ⟨((normalizeStep p).1).map toRaw, (normalizeStep p).2⟩ =
      normalizeStep p := by
  have hnodes : normalizeNodes (((normalizeStep p).1).map toRaw) = (normalizeStep p).1 := by
    rw [normalizeStep_fst, normalizeNodes, normalizeNodes, List.map_map, List.map_map]
    exact List.map_congr_left (fun n _ => normalizeNode_toRaw n)
  have h2 : filteredEdges (idsOfN (normalizeNodes (((normalizeStep p).1).map toRaw)))
      (normalizeStep p).2 = (normalizeStep p).2 := by
    rw [hnodes]
    rw [normalizeStep_fst, normalizeStep_snd]
    unfold filteredEdges
    rw [List.filter_filter]
    apply List.filter_congr
    intro e _
    rw [Bool.and_self]
  have h1 : (normalizeStep ⟨((normalizeStep p).1).map toRaw, (normalizeStep p).2⟩).1 =
      (normalizeStep p).1 := hnodes
  have h2' : (normalizeStep ⟨((normalizeStep p).1).map toRaw, (normalizeStep p).2⟩).2 =
      (normalizeStep p).2 := h2
  exact Prod.ext h1 h2'

/-- C6 (amended): a raw node lacking `id` is not rejected — the pipeline
always completes and returns one output node per input node, in order, with
the (possibly undefined) id carried through. -/
theorem c6_missing_id_processed (p : Payload) (i : ℕ) (n : RawNode)
    (h : p.nodes[i]? = some n) :
    ∃ u, (pipeline p).nodes[i]? = some u ∧ u.id = n.id := by
  have hmap : ((pipeline p).nodes).map (fun u => u.id) = p.nodes.map RawNode.id := by
    have h1 := idsOfN_labelComponents (normalizeStep p).1 (normalizeStep p).2
    rw [normalizeStep_fst, idsOfN_normalize] at h1
    exact h1
  have hx : (((pipeline p).nodes).map (fun u => u.id))[i]? = some n.id := by
    rw [hmap, List.getElem?_map, h]
    rfl
  rw [List.getElem?_map] at hx
  cases hu : ((pipeline p).nodes)[i]? with
  | none =>
      rw [hu] at hx
      simp at hx
  | some u =>
      rw [hu] at hx
      exact ⟨u, rfl, Option.some.inj hx⟩

/-- C1 (code bug, witnessed): on `bugPayload` — two isolated nodes, ids `""`
and `"x"` — the connector guard `if (a && b)` of line 93 treats the
empty-string representative id as falsy, so no synthetic edge is emitted:
the non-empty output graph has two nodes, no edges, and is not connected,
contradicting the connectivity guarantee announced by the source comment at
line 82. -/
theorem c1_connectivity_fails_on_empty_string_id :
    (pipeline bugPayload).edges = [] ∧
    ((pipeline bugPayload).nodes.map fun n => n.id) = [some "", some "x"] ∧
    ¬ Reach (pipeline bugPayload).edges (some "") (some "x") := by
  refine ⟨by decide, by decide, fun h => ?_⟩
  rw [show (pipeline bugPayload).edges = [] by decide] at h
  exact absurd (reach_nil h) (by decide)

/-- C3 (code bug, witnessed): on the same payload the labeling finds the two
distinct components `1` and `2`, yet the injector emits zero synthetic edges
instead of the claimed `2 − 1 = 1`. -/
theorem c3_connector_count_fails_on_empty_string_id :
    compIds (pipeline bugPayload).nodes = [1, 2] ∧
    syntheticEdges (pipeline bugPayload).nodes = [] :=
  ⟨by decide, by decide⟩

/-- C6 (counterexample): on a payload whose single node lacks `id`, the
computation does not fail — it runs to completion and produces this output,
the undefined id flowing through normalization and labeling. -/
theorem c6_no_failure_on_missing_id :
    pipeline noIdPayload = ⟨[⟨none, none, 1 / 5, 0, 0, some 1⟩], []⟩ := rfl

/-! ### Witnesses: the theorems above applied at the concrete payloads -/

/-- Witness for C2 at `exPayload`. -/
theorem c2_partition_witness :
    ((exPayload.nodes.map RawNode.id).Nodup) ∧
    (∀ u ∈ (pipeline exPayload).nodes, ∀ v ∈ (pipeline exPayload).nodes,
      (u.component = v.component ↔ Reach (normalizeStep exPayload).2 u.id v.id)) :=
  ⟨by decide, c2_partition exPayload (by decide)⟩

/-- Witness for C9 at `exPayload`. -/
theorem c9_component_range_witness :
    ((exPayload.nodes.map RawNode.id).Nodup) ∧
    (∃ k, (∀ u ∈ (pipeline exPayload).nodes,
        ∃ c, u.component = some c ∧ 1 ≤ c ∧ c ≤ k) ∧
      (∀ c, 1 ≤ c → c ≤ k → ∃ u ∈ (pipeline exPayload).nodes, u.component = some c)) :=
  ⟨by decide, c9_component_range exPayload (by decide)⟩

/-- Witness for C7: `exPayloadPerm` is a permutation of `exPayload` and the
induced partitions agree. -/
theorem c7_order_invariance_witness :
    (exPayloadPerm.nodes.Perm exPayload.nodes) ∧
    (exPayloadPerm.edges.Perm exPayload.edges) ∧
    ((exPayload.nodes.map RawNode.id).Nodup) ∧
    (∀ x y, sameComp exPayload x y ↔ sameComp exPayloadPerm x y) :=
  ⟨by decide, by decide, by decide,
    c7_order_invariance exPayload exPayloadPerm (by decide) (by decide) (by decide)⟩

/-- Witness for C4 at `exPayload` and its retained edge. -/
theorem c4_referential_integrity_witness :
    (exEdgeAB ∈ (pipeline exPayload).edges) ∧
    ((∃ u ∈ (pipeline exPayload).nodes, u.id = exEdgeAB.source) ∧
     (∃ v ∈ (pipeline exPayload).nodes, v.id = exEdgeAB.target)) :=
  ⟨by decide, (c4_referential_integrity exPayload).1 exEdgeAB (by decide)⟩

/-- Witness for C10 at `exPayload` and its synthetic connector. -/
theorem c10_frame_witness :
    (exSyn ∈ syntheticEdges (pipeline exPayload).nodes) ∧
    exSyn.weight = some (1 / 10) := by
  have hmem : exSyn ∈ syntheticEdges (pipeline exPayload).nodes := by
    rw [show syntheticEdges (pipeline exPayload).nodes = [exSyn] from rfl]
    exact List.mem_singleton.mpr rfl
  exact ⟨hmem, (c10_frame exPayload).2.2 exSyn hmem⟩

/-- Witness for C5 at a raw node exercising each defaulting rule. -/
theorem c5_normalization_witness :
    (([exRaw] : List RawNode)[0]? = some exRaw) ∧
    (∃ u, (normalizeNodes [exRaw])[0]? = some u ∧
      u.id = exRaw.id ∧
      (∀ l, exRaw.label = some l → u.label = some l) ∧
      (exRaw.label = none → u.label = exRaw.id) ∧
      (∀ q, exRaw.importance = some q → u.importance = q) ∧
      (exRaw.importance = none → u.importance = max (exRaw.size.getD 1) 1 / 5) ∧
      u.frequency = exRaw.frequency.getD 0 ∧
      u.degree = exRaw.degree.getD 0 ∧
      (normalizeNodes [exRaw]).length = ([exRaw] : List RawNode).length) :=
  ⟨by decide, c5_normalization [exRaw] 0 exRaw (by decide)⟩

/-- Witness for the amended C6 at `noIdPayload`. -/
theorem c6_missing_id_processed_witness :
    (noIdPayload.nodes[0]? = some ⟨none, none, none, none, none, none⟩) ∧
    (∃ u, (pipeline noIdPayload).nodes[0]? = some u ∧
      u.id = (⟨none, none, none, none, none, none⟩ : RawNode).id) :=
  ⟨by decide, c6_missing_id_processed noIdPayload 0 _ (by decide)⟩

end KG
